import Mathlib

/-!
Shallow embedding of `src/lib.rs` (macro_scope): marker-discovery and
extraction over a parsed module body.

Modelling choices:
* `syn::Attribute` is modelled by its path, a list of path-segment
  identifiers; `path.get_ident()` succeeds exactly when the path has one
  segment, which is what the code relies on.
* `syn::Item` is a tagged variant; the five annotation-bearing kinds
  (`Struct`, `Trait`, `Mod`, `Enum`, `Fn`) carry their attribute list plus
  an opaque `rest` standing for all remaining fields; every other kind is
  collapsed into `Other` since the code treats them uniformly (`_ => continue`).
* a shared mutable reference `Rc<RefCell<Item>>` is represented by the index
  of the node in the declaration container; the in-place mutation of the
  scan is made explicit by returning the post-state of the container next
  to the produced map.
* `HashMap<String, Vec<_>>` with `get_mut`/`push`/`insert` is modelled as an
  association list with create-on-first-insert and per-bucket append.
-/

/-- Containment of `pat` as a contiguous run somewhere in `l`. -/
def listContains (pat : List Char) (l : List Char) : Bool :=
  match l with
  | [] => pat.isEmpty
  | _ :: rest => pat.isPrefixOf l || listContains pat rest

/-- Substring containment, the semantics of Rust `str::contains(name)`:
`pat` occurs contiguously inside `s` (the empty pattern is contained in
every string). -/
def strContains (s pat : String) : Bool :=
  listContains pat.toList s.toList

/-- An annotation, modelled by the identifiers of its path segments. -/
structure Attribute where
  path : List String
deriving DecidableEq, Repr

/-- `Path::get_ident`: the plain identifier of the path when it has exactly
one segment; `none` for multi-segment paths. -/
def Attribute.get_ident (a : Attribute) : Option String :=
  match a.path with
  | [s] => some s
  | _ => none

/-- A declaration node. The five annotation-bearing kinds carry their
attribute list and an opaque `rest` for every other field; all remaining
`syn::Item` kinds are collapsed into `Other`. -/
inductive Item where
  | Struct (attrs : List Attribute) (rest : String)
  | Trait (attrs : List Attribute) (rest : String)
  | Mod (attrs : List Attribute) (rest : String)
  | Enum (attrs : List Attribute) (rest : String)
  | Fn (attrs : List Attribute) (rest : String)
  | Other (rest : String)
deriving DecidableEq, Repr

/-- The match in the scan loop: the attribute list of an eligible node,
`none` for kinds the loop skips (`_ => continue`). -/
def Item.attrs? : Item → Option (List Attribute)
  | .Struct attrs _ => some attrs
  | .Trait attrs _ => some attrs
  | .Mod attrs _ => some attrs
  | .Enum attrs _ => some attrs
  | .Fn attrs _ => some attrs
  | .Other _ => none

/-- Write back a mutated attribute list into the node, leaving every other
field unchanged (the in-place `attrs.remove(indx)` of the source). -/
def Item.withAttrs : Item → List Attribute → Item
  | .Struct _ r, as => .Struct as r
  | .Trait _ r, as => .Trait as r
  | .Mod _ r, as => .Mod as r
  | .Enum _ r, as => .Enum as r
  | .Fn _ r, as => .Fn as r
  | .Other r, _ => .Other r

/-- The opaque remainder of a node (every field other than the attribute
list). -/
def Item.rest : Item → String
  | .Struct _ r => r
  | .Trait _ r => r
  | .Mod _ r => r
  | .Enum _ r => r
  | .Fn _ r => r
  | .Other r => r

/-- `find_attribute`: index and identifier of the first attribute whose
single-segment identifier contains `name` as a substring; attributes with a
multi-segment path are passed over. -/
def find_attribute (attrs : List Attribute) (name : String) : Option (Nat × String) :=
  match attrs with
  | [] => none
  | a :: rest =>
    match a.get_ident with
    | some ident =>
      if strContains ident name then some (0, ident)
      else (find_attribute rest name).map (fun p => (p.1 + 1, p.2))
    | none => (find_attribute rest name).map (fun p => (p.1 + 1, p.2))

/-- `MarkedItem<T>`: a removed annotation paired with the item it was
removed from. -/
structure MarkedItem (T : Type) where
  mark : Attribute
  item : T
deriving DecidableEq, Repr

/-- `MarkedItem::new`. -/
def MarkedItem.new (mark : Attribute) (item : T) : MarkedItem T :=
  { mark := mark, item := item }

/-- `SharedMarkedItem<Item> = MarkedItem<Rc<RefCell<Item>>>`: the shared
reference to a declaration node is represented by the node's index (a `Nat`)
in the declaration container. -/
abbrev SharedMarkedItem := MarkedItem Nat

/-- The output `HashMap<String, Vec<SharedMarkedItem<Item>>>`, modelled as
an association list whose buckets are created on first insert. -/
abbrev GroupMap := List (String × List SharedMarkedItem)

/-- The `get_mut`/`push`-or-`insert` step of the scan loop: append `v` to
the bucket of `key`, creating the bucket when absent. -/
def groupInsert (m : GroupMap) (key : String) (v : SharedMarkedItem) : GroupMap :=
  match m with
  | [] => [(key, [v])]
  | (k, vs) :: rest =>
    if k = key then (k, vs ++ [v]) :: rest else (k, vs) :: groupInsert rest key v

/-- Bucket lookup in the group map (empty list when the key is absent). -/
def groupGet (m : GroupMap) (key : String) : List SharedMarkedItem :=
  match m with
  | [] => []
  | (k, vs) :: rest => if k = key then vs else groupGet rest key

/-- The key set of the group map. -/
def groupKeys (m : GroupMap) : List String :=
  m.map Prod.fst

/-- The loop body of `get_items_by_mark_prefix` on one node: pick out the
attribute list for the five eligible kinds, run `find_attribute`, and on a
match remove the attribute by index (`attrs.remove(indx)`) and record the
removed attribute with the node's identifier under the full matched
identifier. `idx` is the node's index in the container; the fold returns
the post-state of every node next to the accumulated map. `attrs.remove`
also returns the removed element; `find_attribute` guarantees the index is
in range, so the `getD` default is never reached. -/
def scanFrom (items : List Item) (mark : String) (idx : Nat) (acc : GroupMap) :
    List Item × GroupMap :=
  match items with
  | [] => ([], acc)
  | i :: rest =>
    match i.attrs? with
    | none =>
      let r := scanFrom rest mark (idx + 1) acc
      (i :: r.1, r.2)
    | some attrs =>
      match find_attribute attrs mark with
      | none =>
        let r := scanFrom rest mark (idx + 1) acc
        (i :: r.1, r.2)
      | some (indx, ident) =>
        let a := attrs.getD indx { path := [] }
        let r := scanFrom rest mark (idx + 1)
          (groupInsert acc ident (MarkedItem.new a idx))
        (i.withAttrs (attrs.eraseIdx indx) :: r.1, r.2)

/-- `get_items_by_mark_prefix`: scan every node of the container, remove the
first matching annotation of each matched node, and group the marked items
by the full matched identifier. The first component is the post-state of
the (shared, mutated in place) container; the second is the returned map. -/
def get_items_by_mark_prefix (items : List Item) (mark : String) :
    List Item × GroupMap :=
  scanFrom items mark 0 []

/-- `ItemMod`: the parsed module declaration handed over by the upstream
parser; `content` is `Some((brace, items))` when the module has an inline
body, `None` otherwise. The brace token is opaque. -/
structure ItemMod where
  content : Option (Unit × List Item)

/-- `MacroScope`: the declaration container. Each node is individually
shared (`Rc<RefCell<_>>`), which the embedding represents by index. -/
structure MacroScope where
  items : List Item
deriving DecidableEq

/-- `MacroScope::parse`. The upstream `input.parse::<ItemMod>()?` is the
black-box parser; its outcome is the `Except` input and a parse error is
propagated unchanged. Given a parsed module, a missing body yields the
empty container (`Default::default()`), an inline body yields exactly its
items in order. -/
def MacroScope.parse (input : Except String ItemMod) : Except String MacroScope :=
  match input with
  | .error e => .error e
  | .ok m =>
    match m.content with
    | some c => .ok { items := c.2 }
    | none => .ok { items := [] }

/-! ### Derived specification-side notions -/

/-- An attribute matches `name` when its path is a plain single-segment
identifier containing `name` as a substring (the test inside the
`find_attribute` loop). -/
def attrMatches (a : Attribute) (name : String) : Bool :=
  match a.get_ident with
  | some ident => strContains ident name
  | none => false

/-- The effect of one scan step on one node: unchanged when ineligible or
unmatched, otherwise the matched attribute is removed in place by index. -/
def processOne (i : Item) (mark : String) : Item :=
  match i.attrs? with
  | none => i
  | some attrs =>
    match find_attribute attrs mark with
    | none => i
    | some (indx, _) => i.withAttrs (attrs.eraseIdx indx)

/-- The entry a node contributes to the map, when it contributes one: the
full matched identifier and the removed attribute. -/
def matchedEntry (i : Item) (mark : String) : Option (String × Attribute) :=
  match i.attrs? with
  | none => none
  | some attrs =>
    match find_attribute attrs mark with
    | none => none
    | some (indx, ident) => some (ident, attrs.getD indx { path := [] })

/-- The keyed entries the scan inserts, in scan order, nodes numbered from
`idx`. -/
def entriesFrom (items : List Item) (mark : String) (idx : Nat) :
    List (String × SharedMarkedItem) :=
  match items with
  | [] => []
  | i :: rest =>
    match matchedEntry i mark with
    | none => entriesFrom rest mark (idx + 1)
    | some (ident, a) => (ident, MarkedItem.new a idx) :: entriesFrom rest mark (idx + 1)

/-! ### Basic lemmas -/

@[simp]
theorem MarkedItem.new_mark {T : Type} (m : Attribute) (t : T) :
    (MarkedItem.new m t).mark = m := rfl

@[simp]
theorem MarkedItem.new_item {T : Type} (m : Attribute) (t : T) :
    (MarkedItem.new m t).item = t := rfl

theorem listContains_nil (l : List Char) : listContains [] l = true := by
  cases l <;> simp [listContains, List.isPrefixOf]

theorem strContains_empty_pat (s : String) : strContains s "" = true := by
  have h : ("" : String).toList = [] := rfl
  rw [strContains, h, listContains_nil]

theorem get_ident_eq_some_iff (a : Attribute) (s : String) :
    a.get_ident = some s ↔ a.path = [s] := by
  obtain ⟨p⟩ := a
  match p with
  | [] => simp [Attribute.get_ident]
  | [x] => simp [Attribute.get_ident]
  | x :: y :: t => simp [Attribute.get_ident]

theorem attrMatches_of_get_ident_none {a : Attribute} (h : a.get_ident = none)
    (name : String) : attrMatches a name = false := by
  simp [attrMatches, h]

theorem attrMatches_of_get_ident_some {a : Attribute} {s : String}
    (h : a.get_ident = some s) (name : String) :
    attrMatches a name = strContains s name := by
  simp [attrMatches, h]

theorem find_attribute_eq_none_iff (attrs : List Attribute) (name : String) :
    find_attribute attrs name = none ↔ ∀ a ∈ attrs, attrMatches a name = false := by
  induction attrs with
  | nil => simp [find_attribute]
  | cons a rest ih =>
    cases hg : a.get_ident with
    | some ident =>
      by_cases hc : strContains ident name = true
      · simp [find_attribute, hg, hc, attrMatches]
      · simp [find_attribute, hg, hc, Option.map_eq_none', ih,
          attrMatches_of_get_ident_some hg, Bool.not_eq_true] at *
    | none =>
      simp [find_attribute, hg, Option.map_eq_none', ih,
        attrMatches_of_get_ident_none hg]

theorem find_attribute_eq_some_spec {attrs : List Attribute} {name : String}
    {j : Nat} {ident : String} (h : find_attribute attrs name = some (j, ident)) :
    ∃ a, attrs[j]? = some a ∧ a.get_ident = some ident ∧
      strContains ident name = true ∧
      ∀ k b, k < j → attrs[k]? = some b → attrMatches b name = false := by
  induction attrs generalizing j with
  | nil => simp [find_attribute] at h
  | cons a rest ih =>
    cases hg : a.get_ident with
    | some id0 =>
      by_cases hc : strContains id0 name = true
      · simp only [find_attribute, hg, hc, if_true, Option.some.injEq,
          Prod.mk.injEq] at h
        obtain ⟨h1, h2⟩ := h
        subst h1
        subst h2
        refine ⟨a, by simp, hg, hc, ?_⟩
        intro k b hk
        omega
      · simp only [find_attribute, hg, hc, if_false, Bool.false_eq_true] at h
        obtain ⟨⟨j', id'⟩, hfind, heq⟩ := Option.map_eq_some'.mp h
        simp only [Prod.mk.injEq] at heq
        obtain ⟨he1, he2⟩ := heq
        subst he1
        subst he2
        obtain ⟨a', ha', hgi, hsc, hfirst⟩ := ih hfind
        refine ⟨a', by simpa using ha', hgi, hsc, ?_⟩
        intro k b hk hb
        match k with
        | 0 =>
          have hba : a = b := by simpa using hb
          subst hba
          simp [attrMatches_of_get_ident_some hg, hc]
        | k' + 1 =>
          exact hfirst k' b (by omega) (by simpa using hb)
    | none =>
      simp only [find_attribute, hg] at h
      obtain ⟨⟨j', id'⟩, hfind, heq⟩ := Option.map_eq_some'.mp h
      simp only [Prod.mk.injEq] at heq
      obtain ⟨he1, he2⟩ := heq
      subst he1
      subst he2
      obtain ⟨a', ha', hgi, hsc, hfirst⟩ := ih hfind
      refine ⟨a', by simpa using ha', hgi, hsc, ?_⟩
      intro k b hk hb
      match k with
      | 0 =>
        have hba : a = b := by simpa using hb
        subst hba
        exact attrMatches_of_get_ident_none hg name
      | k' + 1 =>
        exact hfirst k' b (by omega) (by simpa using hb)

/-! ### Unfolding lemmas for the scan -/

theorem processOne_ineligible {i : Item} (h : i.attrs? = none) (mark : String) :
    processOne i mark = i := by
  simp [processOne, h]

theorem processOne_nomatch {i : Item} {attrs : List Attribute} {mark : String}
    (h1 : i.attrs? = some attrs) (h2 : find_attribute attrs mark = none) :
    processOne i mark = i := by
  simp [processOne, h1, h2]

theorem processOne_match {i : Item} {attrs : List Attribute} {mark : String}
    {indx : Nat} {ident : String} (h1 : i.attrs? = some attrs)
    (h2 : find_attribute attrs mark = some (indx, ident)) :
    processOne i mark = i.withAttrs (attrs.eraseIdx indx) := by
  simp [processOne, h1, h2]

theorem matchedEntry_ineligible {i : Item} (h : i.attrs? = none) (mark : String) :
    matchedEntry i mark = none := by
  simp [matchedEntry, h]

theorem matchedEntry_nomatch {i : Item} {attrs : List Attribute} {mark : String}
    (h1 : i.attrs? = some attrs) (h2 : find_attribute attrs mark = none) :
    matchedEntry i mark = none := by
  simp [matchedEntry, h1, h2]

theorem matchedEntry_match {i : Item} {attrs : List Attribute} {mark : String}
    {indx : Nat} {ident : String} (h1 : i.attrs? = some attrs)
    (h2 : find_attribute attrs mark = some (indx, ident)) :
    matchedEntry i mark = some (ident, attrs.getD indx { path := [] }) := by
  simp [matchedEntry, h1, h2]

theorem scanFrom_cons_ineligible {i : Item} (h : i.attrs? = none)
    (rest : List Item) (mark : String) (idx : Nat) (acc : GroupMap) :
    scanFrom (i :: rest) mark idx acc =
      (i :: (scanFrom rest mark (idx + 1) acc).1,
       (scanFrom rest mark (idx + 1) acc).2) := by
  simp [scanFrom, h]

theorem scanFrom_cons_nomatch {i : Item} {attrs : List Attribute} {mark : String}
    (h1 : i.attrs? = some attrs) (h2 : find_attribute attrs mark = none)
    (rest : List Item) (idx : Nat) (acc : GroupMap) :
    scanFrom (i :: rest) mark idx acc =
      (i :: (scanFrom rest mark (idx + 1) acc).1,
       (scanFrom rest mark (idx + 1) acc).2) := by
  simp [scanFrom, h1, h2]

theorem scanFrom_cons_match {i : Item} {attrs : List Attribute} {mark : String}
    {indx : Nat} {ident : String} (h1 : i.attrs? = some attrs)
    (h2 : find_attribute attrs mark = some (indx, ident))
    (rest : List Item) (idx : Nat) (acc : GroupMap) :
    scanFrom (i :: rest) mark idx acc =
      (i.withAttrs (attrs.eraseIdx indx) ::
         (scanFrom rest mark (idx + 1)
           (groupInsert acc ident
             (MarkedItem.new (attrs.getD indx { path := [] }) idx))).1,
       (scanFrom rest mark (idx + 1)
         (groupInsert acc ident
           (MarkedItem.new (attrs.getD indx { path := [] }) idx))).2) := by
  simp [scanFrom, h1, h2]

theorem scanFrom_fst (items : List Item) (mark : String) (idx : Nat)
    (acc : GroupMap) :
    (scanFrom items mark idx acc).1 = items.map (fun i => processOne i mark) := by
  induction items generalizing idx acc with
  | nil => rfl
  | cons i rest ih =>
    cases h1 : i.attrs? with
    | none =>
      rw [scanFrom_cons_ineligible h1]
      simp [processOne_ineligible h1, ih]
    | some attrs =>
      cases h2 : find_attribute attrs mark with
      | none =>
        rw [scanFrom_cons_nomatch h1 h2]
        simp [processOne_nomatch h1 h2, ih]
      | some p =>
        obtain ⟨indx, ident⟩ := p
        rw [scanFrom_cons_match h1 h2]
        simp [processOne_match h1 h2, ih]

theorem scanFrom_snd (items : List Item) (mark : String) (idx : Nat)
    (acc : GroupMap) :
    (scanFrom items mark idx acc).2 =
      List.foldl (fun m p => groupInsert m p.1 p.2) acc (entriesFrom items mark idx) := by
  induction items generalizing idx acc with
  | nil => rfl
  | cons i rest ih =>
    cases h1 : i.attrs? with
    | none =>
      rw [scanFrom_cons_ineligible h1]
      simp [entriesFrom, matchedEntry_ineligible h1, ih]
    | some attrs =>
      cases h2 : find_attribute attrs mark with
      | none =>
        rw [scanFrom_cons_nomatch h1 h2]
        simp [entriesFrom, matchedEntry_nomatch h1 h2, ih]
      | some p =>
        obtain ⟨indx, ident⟩ := p
        rw [scanFrom_cons_match h1 h2]
        simp [entriesFrom, matchedEntry_match h1 h2, ih]

/-! ### Group-map lemmas -/

theorem groupGet_groupInsert (m : GroupMap) (k k' : String) (v : SharedMarkedItem) :
    groupGet (groupInsert m k v) k' =
      if k = k' then groupGet m k' ++ [v] else groupGet m k' := by
  induction m with
  | nil =>
    by_cases h : k = k' <;> simp [groupInsert, groupGet, h]
  | cons b m' ih =>
    obtain ⟨k0, vs⟩ := b
    by_cases h0 : k0 = k <;> by_cases h1 : k0 = k' <;> by_cases h2 : k = k' <;>
      simp_all [groupInsert, groupGet]

theorem groupGet_foldl (l : List (String × SharedMarkedItem)) (acc : GroupMap)
    (k : String) :
    groupGet (List.foldl (fun m p => groupInsert m p.1 p.2) acc l) k =
      groupGet acc k ++ (l.filter (fun p => p.1 == k)).map Prod.snd := by
  induction l generalizing acc with
  | nil => simp
  | cons p l ih =>
    obtain ⟨pk, pv⟩ := p
    simp only [List.foldl_cons, ih, List.filter_cons]
    by_cases h : pk = k
    · simp [h, groupGet_groupInsert]
    · simp [h, groupGet_groupInsert]

@[simp]
theorem groupKeys_nil : groupKeys [] = [] := rfl

@[simp]
theorem groupKeys_cons (k0 : String) (vs : List SharedMarkedItem) (m : GroupMap) :
    groupKeys ((k0, vs) :: m) = k0 :: groupKeys m := rfl

theorem groupInsert_cons_eq (k : String) (vs : List SharedMarkedItem)
    (m : GroupMap) (v : SharedMarkedItem) :
    groupInsert ((k, vs) :: m) k v = (k, vs ++ [v]) :: m := by
  simp [groupInsert]

theorem groupInsert_cons_ne {k0 k : String} (h : k0 ≠ k)
    (vs : List SharedMarkedItem) (m : GroupMap) (v : SharedMarkedItem) :
    groupInsert ((k0, vs) :: m) k v = (k0, vs) :: groupInsert m k v := by
  simp [groupInsert, h]

theorem mem_groupKeys_groupInsert (m : GroupMap) (k : String) (v : SharedMarkedItem)
    (k' : String) :
    k' ∈ groupKeys (groupInsert m k v) ↔ k' ∈ groupKeys m ∨ k' = k := by
  induction m with
  | nil => simp [groupInsert]
  | cons b m' ih =>
    obtain ⟨k0, vs⟩ := b
    by_cases h : k0 = k
    · subst h
      rw [groupInsert_cons_eq]
      simp only [groupKeys_cons, List.mem_cons]
      tauto
    · rw [groupInsert_cons_ne h]
      simp only [groupKeys_cons, List.mem_cons, ih]
      tauto

theorem nodup_groupKeys_groupInsert (m : GroupMap) (k : String)
    (v : SharedMarkedItem) (h : (groupKeys m).Nodup) :
    (groupKeys (groupInsert m k v)).Nodup := by
  induction m with
  | nil => simp [groupInsert]
  | cons b m' ih =>
    obtain ⟨k0, vs⟩ := b
    simp only [groupKeys_cons, List.nodup_cons] at h
    obtain ⟨hnot, hnd⟩ := h
    by_cases hk : k0 = k
    · subst hk
      rw [groupInsert_cons_eq]
      simp only [groupKeys_cons, List.nodup_cons]
      exact ⟨hnot, hnd⟩
    · rw [groupInsert_cons_ne hk]
      simp only [groupKeys_cons, List.nodup_cons]
      refine ⟨?_, ih hnd⟩
      intro hmem
      rcases (mem_groupKeys_groupInsert m' k v k0).mp hmem with hm | he
      · exact hnot hm
      · exact hk he

theorem mem_groupKeys_foldl (l : List (String × SharedMarkedItem)) (acc : GroupMap)
    (k : String) :
    k ∈ groupKeys (List.foldl (fun m p => groupInsert m p.1 p.2) acc l) ↔
      k ∈ groupKeys acc ∨ k ∈ l.map Prod.fst := by
  induction l generalizing acc with
  | nil => simp
  | cons p l ih =>
    simp only [List.foldl_cons, ih, mem_groupKeys_groupInsert, List.map_cons,
      List.mem_cons]
    tauto

theorem nodup_groupKeys_foldl (l : List (String × SharedMarkedItem)) (acc : GroupMap)
    (h : (groupKeys acc).Nodup) :
    (groupKeys (List.foldl (fun m p => groupInsert m p.1 p.2) acc l)).Nodup := by
  induction l generalizing acc with
  | nil => exact h
  | cons p l ih =>
    exact ih _ (nodup_groupKeys_groupInsert acc p.1 p.2 h)

/-! ### Lemmas about the produced entries -/

theorem mem_entriesFrom {p : String × SharedMarkedItem} {items : List Item}
    {mark : String} {idx : Nat} (h : p ∈ entriesFrom items mark idx) :
    ∃ j i, items[j]? = some i ∧ p.2.item = idx + j ∧
      matchedEntry i mark = some (p.1, p.2.mark) := by
  induction items generalizing idx with
  | nil => simp [entriesFrom] at h
  | cons i rest ih =>
    cases hm : matchedEntry i mark with
    | none =>
      simp only [entriesFrom, hm] at h
      obtain ⟨j, i', hj, hitem, hme⟩ := ih h
      exact ⟨j + 1, i', by simpa using hj, by rw [hitem]; omega, hme⟩
    | some q =>
      obtain ⟨ident, a⟩ := q
      simp only [entriesFrom, hm, List.mem_cons] at h
      rcases h with h | h
      · subst h
        exact ⟨0, i, by simp, by simp, hm⟩
      · obtain ⟨j, i', hj, hitem, hme⟩ := ih h
        exact ⟨j + 1, i', by simpa using hj, by rw [hitem]; omega, hme⟩

theorem entriesFrom_mem_intro {items : List Item} {mark : String} {j : Nat}
    {i : Item} {ident : String} {a : Attribute} (idx : Nat)
    (hj : items[j]? = some i) (hm : matchedEntry i mark = some (ident, a)) :
    (ident, MarkedItem.new a (idx + j)) ∈ entriesFrom items mark idx := by
  induction items generalizing idx j with
  | nil => simp at hj
  | cons i0 rest ih =>
    cases j with
    | zero =>
      have he : i0 = i := by simpa using hj
      subst he
      simp [entriesFrom, hm]
    | succ j' =>
      have hj' : rest[j']? = some i := by simpa using hj
      have hmem := ih (idx + 1) hj'
      have harith : idx + (j' + 1) = (idx + 1) + j' := by omega
      rw [harith]
      cases hm0 : matchedEntry i0 mark with
      | none => simpa [entriesFrom, hm0] using hmem
      | some q =>
        obtain ⟨id0, a0⟩ := q
        simp only [entriesFrom, hm0, List.mem_cons]
        exact Or.inr hmem

theorem entriesFrom_item_le (items : List Item) (mark : String) (idx : Nat) :
    ∀ p ∈ entriesFrom items mark idx, idx ≤ p.2.item := by
  induction items generalizing idx with
  | nil => simp [entriesFrom]
  | cons i rest ih =>
    intro p hp
    cases hm : matchedEntry i mark with
    | none =>
      simp only [entriesFrom, hm] at hp
      exact le_trans (by omega) (ih (idx + 1) p hp)
    | some q =>
      obtain ⟨ident, a⟩ := q
      simp only [entriesFrom, hm, List.mem_cons] at hp
      rcases hp with rfl | hp
      · simp
      · exact le_trans (by omega) (ih (idx + 1) p hp)

theorem entriesFrom_pairwise (items : List Item) (mark : String) (idx : Nat) :
    (entriesFrom items mark idx).Pairwise (fun p q => p.2.item < q.2.item) := by
  induction items generalizing idx with
  | nil => simp [entriesFrom]
  | cons i rest ih =>
    cases hm : matchedEntry i mark with
    | none => simpa [entriesFrom, hm] using ih (idx + 1)
    | some q =>
      obtain ⟨ident, a⟩ := q
      simp only [entriesFrom, hm]
      refine List.Pairwise.cons ?_ (ih (idx + 1))
      intro p hp
      have h1 := entriesFrom_item_le rest mark (idx + 1) p hp
      show (MarkedItem.new a idx).item < p.2.item
      simp only [MarkedItem.new_item]
      omega

theorem entriesFrom_item_inj {items : List Item} {mark : String} {idx : Nat}
    {p q : String × SharedMarkedItem} (hp : p ∈ entriesFrom items mark idx)
    (hq : q ∈ entriesFrom items mark idx) (h : p.2.item = q.2.item) : p = q := by
  induction items generalizing idx with
  | nil => simp [entriesFrom] at hp
  | cons i rest ih =>
    cases hm : matchedEntry i mark with
    | none =>
      simp only [entriesFrom, hm] at hp hq
      exact ih hp hq
    | some qq =>
      obtain ⟨ident, a⟩ := qq
      simp only [entriesFrom, hm, List.mem_cons] at hp hq
      rcases hp with rfl | hp <;> rcases hq with rfl | hq
      · rfl
      · exfalso
        have h1 := entriesFrom_item_le rest mark (idx + 1) q hq
        have h2 : idx = q.2.item := h
        omega
      · exfalso
        have h1 := entriesFrom_item_le rest mark (idx + 1) p hp
        have h2 : p.2.item = idx := h
        omega
      · exact ih hp hq

/-! ### Bridges between the scan and the produced map -/

theorem get_items_fst (items : List Item) (mark : String) :
    ( get_items_by_mark_prefix items mark).1 =
      items.map (fun i => processOne i mark) :=
  scanFrom_fst items mark 0 []

theorem get_items_bucket (items : List Item) (mark : String) (k : String) :
    groupGet (( get_items_by_mark_prefix items mark).2) k =
      ((entriesFrom items mark 0).filter (fun p => p.1 == k)).map Prod.snd := by
  rw [ get_items_by_mark_prefix, scanFrom_snd, groupGet_foldl]
  rfl

theorem mem_bucket_iff (items : List Item) (mark : String) (k : String)
    (e : SharedMarkedItem) :
    e ∈ groupGet (( get_items_by_mark_prefix items mark).2) k ↔
      (k, e) ∈ entriesFrom items mark 0 := by
  rw [get_items_bucket]
  simp only [List.mem_map, List.mem_filter, beq_iff_eq]
  constructor
  · rintro ⟨⟨pk, pv⟩, ⟨hmem, hk⟩, hpe⟩
    simp only at hk hpe
    subst hk
    subst hpe
    exact hmem
  · intro h
    exact ⟨(k, e), ⟨h, rfl⟩, rfl⟩

theorem mem_groupKeys_result (items : List Item) (mark : String) (k : String) :
    k ∈ groupKeys (( get_items_by_mark_prefix items mark).2) ↔
      k ∈ (entriesFrom items mark 0).map Prod.fst := by
  rw [ get_items_by_mark_prefix, scanFrom_snd, mem_groupKeys_foldl]
  simp

theorem nodup_groupKeys_result (items : List Item) (mark : String) :
    (groupKeys (( get_items_by_mark_prefix items mark).2)).Nodup := by
  rw [ get_items_by_mark_prefix, scanFrom_snd]
  exact nodup_groupKeys_foldl _ _ (by simp)

theorem matchedEntry_eq_some {i : Item} {mark ident : String} {a : Attribute}
    (h : matchedEntry i mark = some (ident, a)) :
    ∃ attrs indx, i.attrs? = some attrs ∧
      find_attribute attrs mark = some (indx, ident) ∧ attrs[indx]? = some a := by
  cases h1 : i.attrs? with
  | none => simp [matchedEntry, h1] at h
  | some attrs =>
    cases h2 : find_attribute attrs mark with
    | none => simp [matchedEntry, h1, h2] at h
    | some p =>
      obtain ⟨indx, ident'⟩ := p
      rw [matchedEntry_match h1 h2] at h
      simp only [Option.some.injEq, Prod.mk.injEq] at h
      obtain ⟨hid, ha⟩ := h
      subst hid
      obtain ⟨a0, ha0, _, _, _⟩ := find_attribute_eq_some_spec h2
      refine ⟨attrs, indx, rfl, h2, ?_⟩
      have hgd : attrs.getD indx { path := [] } = a0 := by
        rw [List.getD_eq_getElem?_getD, ha0]
        rfl
      rw [ha0, ← ha, hgd]

theorem attrs?_withAttrs {i : Item} {attrs : List Attribute}
    (h : i.attrs? = some attrs) (as : List Attribute) :
    (i.withAttrs as).attrs? = some as := by
  cases i <;> simp [Item.attrs?, Item.withAttrs] at h ⊢

theorem rest_withAttrs (i : Item) (as : List Attribute) :
    (i.withAttrs as).rest = i.rest := by
  cases i <;> rfl

theorem processOne_eq_self_of_matchedEntry_none {i : Item} {mark : String}
    (h : matchedEntry i mark = none) : processOne i mark = i := by
  cases h1 : i.attrs? with
  | none => exact processOne_ineligible h1 mark
  | some attrs =>
    cases h2 : find_attribute attrs mark with
    | none => exact processOne_nomatch h1 h2
    | some p =>
      obtain ⟨indx, ident⟩ := p
      rw [matchedEntry_match h1 h2] at h
      exact Option.noConfusion h

theorem entriesFrom_eq_nil_of_no_match {items : List Item} {mark : String}
    (h : ∀ i ∈ items, matchedEntry i mark = none) (idx : Nat) :
    entriesFrom items mark idx = [] := by
  induction items generalizing idx with
  | nil => rfl
  | cons i rest ih =>
    have hi := h i (by simp)
    simp only [entriesFrom, hi]
    exact ih (fun i' hi' => h i' (by simp [hi'])) (idx + 1)

theorem extract_of_no_match (items : List Item) (mark : String)
    (h : ∀ i ∈ items, ∀ attrs, i.attrs? = some attrs →
      find_attribute attrs mark = none) :
    ( get_items_by_mark_prefix items mark) = (items, []) := by
  have hment : ∀ i ∈ items, matchedEntry i mark = none := by
    intro i hi
    cases h1 : i.attrs? with
    | none => exact matchedEntry_ineligible h1 mark
    | some attrs => exact matchedEntry_nomatch h1 (h i hi attrs h1)
  have h2 : ( get_items_by_mark_prefix items mark).2 = [] := by
    rw [ get_items_by_mark_prefix, scanFrom_snd,
      entriesFrom_eq_nil_of_no_match hment 0]
    rfl
  have h1 : ( get_items_by_mark_prefix items mark).1 = items := by
    rw [get_items_fst]
    have heq : items.map (fun i => processOne i mark) = items.map id :=
      List.map_congr_left
        (fun i hi => processOne_eq_self_of_matchedEntry_none (hment i hi))
    simpa using heq
  rw [Prod.ext_iff]
  exact ⟨h1, h2⟩

/-! ### The claims -/

/-- Claim C1: every Marked Entry of the Group Map produced by the extraction
sits in the bucket keyed by the full identifier text of its removed
annotation: the annotation's single-segment identifier equals the bucket key
exactly, and that identifier contains the prefix as a substring — so an
annotation whose identifier contains the prefix as a proper substring is
grouped under its full identifier, never under the prefix itself. -/
theorem c1_grouped_by_full_identifier (items : List Item) (mark k : String)
    (e : SharedMarkedItem)
    (h : e ∈ groupGet (( get_items_by_mark_prefix items mark).2) k) :
    e.mark.get_ident = some k ∧ strContains k mark = true := by
  rw [mem_bucket_iff] at h
  obtain ⟨j, i, hj, hitem, hme⟩ := mem_entriesFrom h
  obtain ⟨attrs, indx, h1, h2, ha⟩ := matchedEntry_eq_some hme
  obtain ⟨a0, ha0, hgi, hsc, _⟩ := find_attribute_eq_some_spec h2
  rw [ha0] at ha
  have hae : a0 = e.mark := Option.some.inj ha
  rw [← hae]
  exact ⟨hgi, hsc⟩

/-- Witness for C1 on a concrete container: prefix `"mark"`, identifier
`"my_mark_v2"` — the entry is grouped under the full identifier. -/
theorem c1_grouped_by_full_identifier_witness :
    (MarkedItem.new (⟨["my_mark_v2"]⟩ : Attribute) 0 : SharedMarkedItem) ∈
      groupGet (( get_items_by_mark_prefix
        ([Item.Struct [⟨["my_mark_v2"]⟩] "A"] : List Item) "mark").2) "my_mark_v2"
    ∧ ((MarkedItem.new (⟨["my_mark_v2"]⟩ : Attribute) 0 : SharedMarkedItem).mark.get_ident
          = some "my_mark_v2"
        ∧ strContains "my_mark_v2" "mark" = true) :=
  ⟨by decide,
    c1_grouped_by_full_identifier [Item.Struct [⟨["my_mark_v2"]⟩] "A"] "mark"
      "my_mark_v2" (MarkedItem.new ⟨["my_mark_v2"]⟩ 0) (by decide)⟩

/-- Claim C2: per extraction call, at most the first matching annotation (in
list order) of each node is removed — every annotation before the removed
index fails the match — and no two Marked Entries across the whole Group Map
reference the same node: entries with equal node references coincide, bucket
key included. -/
theorem c2_first_match_only_and_no_duplicates (items : List Item) (mark : String) :
    (∀ k₁ k₂ e₁ e₂,
        e₁ ∈ groupGet (( get_items_by_mark_prefix items mark).2) k₁ →
        e₂ ∈ groupGet (( get_items_by_mark_prefix items mark).2) k₂ →
        e₁.item = e₂.item → k₁ = k₂ ∧ e₁ = e₂)
    ∧ (∀ (j : Nat) (i : Item) (attrs : List Attribute) (indx : Nat)
          (ident : String), items[j]? = some i → i.attrs? = some attrs →
        find_attribute attrs mark = some (indx, ident) →
        (( get_items_by_mark_prefix items mark).1)[j]? =
            some (i.withAttrs (attrs.eraseIdx indx))
          ∧ ∀ k b, k < indx → attrs[k]? = some b → attrMatches b mark = false) := by
  constructor
  · intro k₁ k₂ e₁ e₂ h₁ h₂ heq
    rw [mem_bucket_iff] at h₁ h₂
    have hpq := entriesFrom_item_inj h₁ h₂ heq
    exact ⟨congrArg Prod.fst hpq, congrArg Prod.snd hpq⟩
  · intro j i attrs indx ident hj h1 h2
    constructor
    · rw [get_items_fst, List.getElem?_map, hj]
      simp [processOne_match h1 h2]
    · obtain ⟨a0, _, _, _, hfirst⟩ := find_attribute_eq_some_spec h2
      exact hfirst

/-- Witness for C2: two entries of the concrete result sharing the node
reference coincide. -/
theorem c2_first_match_only_witness :
    ("mark_x" : String) = "mark_x" ∧
      MarkedItem.new (⟨["mark_x"]⟩ : Attribute) 0 =
        MarkedItem.new (⟨["mark_x"]⟩ : Attribute) 0 :=
  (c2_first_match_only_and_no_duplicates [Item.Struct [⟨["mark_x"]⟩] "A"] "mark").1
    "mark_x" "mark_x" _ _ (by decide) (by decide) rfl

/-- Claim C3: exactly the five kinds Struct, Trait, Mod, Enum, Fn expose an
annotation list to the scan; any node of another kind is skipped entirely:
it is returned unmodified at its position and no entry of the Group Map
references it, regardless of the prefix. -/
theorem c3_exactly_five_kinds (items : List Item) (mark : String) :
    (∀ attrs r, (Item.Struct attrs r).attrs? = some attrs
        ∧ (Item.Trait attrs r).attrs? = some attrs
        ∧ (Item.Mod attrs r).attrs? = some attrs
        ∧ (Item.Enum attrs r).attrs? = some attrs
        ∧ (Item.Fn attrs r).attrs? = some attrs)
    ∧ (∀ r, (Item.Other r).attrs? = none)
    ∧ (∀ (j : Nat) (i : Item), items[j]? = some i → i.attrs? = none →
        (( get_items_by_mark_prefix items mark).1)[j]? = some i
        ∧ ∀ k e, e ∈ groupGet (( get_items_by_mark_prefix items mark).2) k →
            e.item ≠ j) := by
  refine ⟨fun attrs r => ⟨rfl, rfl, rfl, rfl, rfl⟩, fun r => rfl, ?_⟩
  intro j i hj hnone
  constructor
  · rw [get_items_fst, List.getElem?_map, hj]
    simp [processOne_ineligible hnone]
  · intro k e he hitem
    rw [mem_bucket_iff] at he
    obtain ⟨j', i', hj', hidx, hme⟩ := mem_entriesFrom he
    have hidx' : e.item = 0 + j' := hidx
    have hjj : j' = j := by omega
    subst hjj
    rw [hj] at hj'
    have hii : i = i' := Option.some.inj hj'
    subst hii
    rw [matchedEntry_ineligible hnone] at hme
    exact Option.noConfusion hme

/-- Witness for C3: a node of an ineligible kind passes through unmodified. -/
theorem c3_exactly_five_kinds_witness :
    (( get_items_by_mark_prefix [Item.Other "T"] "mark").1)[0]?
      = some (Item.Other "T") :=
  ((c3_exactly_five_kinds [Item.Other "T"] "mark").2.2 0 (Item.Other "T")
    (by decide) rfl).1

/-- Claim C4: when the scan matches a node, removal is destructive and
local: the node at that position becomes the same node with the matched
index erased from its annotation list; the new list exposes exactly one
fewer annotation; annotations before the removed index stay in place and
annotations after it shift down by one position, keeping their relative
order; and the remainder of the node is unchanged. -/
theorem c4_removal_destructive_and_local (items : List Item) (mark : String)
    (j : Nat) (i : Item) (attrs : List Attribute) (indx : Nat) (ident : String)
    (hj : items[j]? = some i) (h1 : i.attrs? = some attrs)
    (h2 : find_attribute attrs mark = some (indx, ident)) :
    (( get_items_by_mark_prefix items mark).1)[j]? =
        some (i.withAttrs (attrs.eraseIdx indx))
    ∧ (i.withAttrs (attrs.eraseIdx indx)).attrs? = some (attrs.eraseIdx indx)
    ∧ (attrs.eraseIdx indx).length + 1 = attrs.length
    ∧ (∀ k, k < indx → (attrs.eraseIdx indx)[k]? = attrs[k]?)
    ∧ (∀ k, indx ≤ k → (attrs.eraseIdx indx)[k]? = attrs[k + 1]?)
    ∧ (i.withAttrs (attrs.eraseIdx indx)).rest = i.rest := by
  obtain ⟨a0, ha0, _, _, _⟩ := find_attribute_eq_some_spec h2
  have hlt : indx < attrs.length := (List.getElem?_eq_some.mp ha0).1
  refine ⟨?_, attrs?_withAttrs h1 _, List.length_eraseIdx_add_one hlt, ?_, ?_,
    rest_withAttrs i _⟩
  · rw [get_items_fst, List.getElem?_map, hj]
    simp [processOne_match h1 h2]
  · intro k hk
    rw [List.eraseIdx_eq_take_drop_succ]
    have hkt : k < (attrs.take indx).length := by
      rw [List.length_take_of_le (le_of_lt hlt)]
      exact hk
    rw [List.getElem?_append_left hkt, List.getElem?_take_of_lt hk]
  · intro k hk
    rw [List.eraseIdx_eq_take_drop_succ]
    have hlen : (attrs.take indx).length = indx :=
      List.length_take_of_le (le_of_lt hlt)
    have hge : (attrs.take indx).length ≤ k := by
      rw [hlen]
      exact hk
    rw [List.getElem?_append_right hge, hlen, List.getElem?_drop]
    congr 1
    omega

/-- Witness for C4 on a concrete node: the multi-segment annotation is
skipped, the first matching annotation (index 1) is removed, the list
shrinks by one. -/
theorem c4_removal_witness :
    (( get_items_by_mark_prefix
        ([Item.Enum [⟨["xy"]⟩, ⟨["mark_a"]⟩, ⟨["mark_b"]⟩] "E"] : List Item)
        "mark").1)[0]?
      = some ((Item.Enum [⟨["xy"]⟩, ⟨["mark_a"]⟩, ⟨["mark_b"]⟩] "E").withAttrs
          (([⟨["xy"]⟩, ⟨["mark_a"]⟩, ⟨["mark_b"]⟩] : List Attribute).eraseIdx 1))
    ∧ (([⟨["xy"]⟩, ⟨["mark_a"]⟩, ⟨["mark_b"]⟩] : List Attribute).eraseIdx 1).length + 1
        = ([⟨["xy"]⟩, ⟨["mark_a"]⟩, ⟨["mark_b"]⟩] : List Attribute).length :=
  ⟨(c4_removal_destructive_and_local
      [Item.Enum [⟨["xy"]⟩, ⟨["mark_a"]⟩, ⟨["mark_b"]⟩] "E"] "mark" 0
      (Item.Enum [⟨["xy"]⟩, ⟨["mark_a"]⟩, ⟨["mark_b"]⟩] "E")
      [⟨["xy"]⟩, ⟨["mark_a"]⟩, ⟨["mark_b"]⟩] 1 "mark_a"
      (by decide) rfl (by decide)).1,
   (c4_removal_destructive_and_local
      [Item.Enum [⟨["xy"]⟩, ⟨["mark_a"]⟩, ⟨["mark_b"]⟩] "E"] "mark" 0
      (Item.Enum [⟨["xy"]⟩, ⟨["mark_a"]⟩, ⟨["mark_b"]⟩] "E")
      [⟨["xy"]⟩, ⟨["mark_a"]⟩, ⟨["mark_b"]⟩] 1 "mark_a"
      (by decide) rfl (by decide)).2.2.1⟩

/-- Claim C5: inside any single bucket of the produced Group Map, the node
references of the entries are strictly increasing, i.e. entries appear in
the same relative order as their source declarations in the container. -/
theorem c5_bucket_preserves_scan_order (items : List Item) (mark k : String) :
    ((groupGet (( get_items_by_mark_prefix items mark).2) k).map
        (fun e => e.item)).Pairwise (fun x y => x < y) := by
  rw [get_items_bucket]
  have hpw := entriesFrom_pairwise items mark 0
  have hf : ((entriesFrom items mark 0).filter (fun p => p.1 == k)).Pairwise
      (fun p q => p.2.item < q.2.item) :=
    List.Pairwise.sublist (List.filter_sublist (entriesFrom items mark 0)) hpw
  rw [List.pairwise_map, List.pairwise_map]
  exact hf

/-- Claim C6: running the extraction again with the same prefix over a
container in which no annotation containing that prefix remains (here: over
the post-state of a first call, when nothing matching is left) yields an
empty Group Map and leaves the container untouched. -/
theorem c6_second_call_empty (items : List Item) (mark : String)
    (h : ∀ i ∈ ( get_items_by_mark_prefix items mark).1, ∀ attrs,
        i.attrs? = some attrs → find_attribute attrs mark = none) :
    ( get_items_by_mark_prefix (( get_items_by_mark_prefix items mark).1) mark)
      = (( get_items_by_mark_prefix items mark).1, []) :=
  extract_of_no_match _ mark h

/-- Witness for C6: a container whose single match is consumed by the first
call; the second call returns the empty map. -/
theorem c6_second_call_empty_witness :
    ( get_items_by_mark_prefix
        (( get_items_by_mark_prefix ([Item.Struct [⟨["mark_x"]⟩] "A"] : List Item)
            "mark").1) "mark")
      = (( get_items_by_mark_prefix ([Item.Struct [⟨["mark_x"]⟩] "A"] : List Item)
            "mark").1, []) :=
  c6_second_call_empty _ "mark" (by decide)

/-- Claim C7: the extraction is total and reports absence structurally: the
key set of the produced map has no duplicates and holds exactly the
identifiers matched on some node (so a prefix matching nothing yields an
empty key set); every eligible node on which no match is found is returned
unmodified and is referenced by no entry of the map. -/
theorem c7_never_fails_exact_keys (items : List Item) (mark : String) :
    (groupKeys (( get_items_by_mark_prefix items mark).2)).Nodup
    ∧ (∀ k : String, k ∈ groupKeys (( get_items_by_mark_prefix items mark).2) ↔
        ∃ (j : Nat) (i : Item) (attrs : List Attribute) (indx : Nat),
          items[j]? = some i ∧ i.attrs? = some attrs ∧
          find_attribute attrs mark = some (indx, k))
    ∧ (∀ (j : Nat) (i : Item) (attrs : List Attribute), items[j]? = some i →
        i.attrs? = some attrs → find_attribute attrs mark = none →
        (( get_items_by_mark_prefix items mark).1)[j]? = some i
        ∧ ∀ k e, e ∈ groupGet (( get_items_by_mark_prefix items mark).2) k →
            e.item ≠ j) := by
  refine ⟨nodup_groupKeys_result items mark, ?_, ?_⟩
  · intro k
    rw [mem_groupKeys_result]
    constructor
    · intro hk
      rw [List.mem_map] at hk
      obtain ⟨p, hp, hpk⟩ := hk
      obtain ⟨j, i, hj, hidx, hme⟩ := mem_entriesFrom hp
      obtain ⟨attrs, indx, h1, h2, _⟩ := matchedEntry_eq_some hme
      rw [hpk] at h2
      exact ⟨j, i, attrs, indx, hj, h1, h2⟩
    · rintro ⟨j, i, attrs, indx, hj, h1, h2⟩
      rw [List.mem_map]
      exact ⟨(k, MarkedItem.new (attrs.getD indx { path := [] }) (0 + j)),
        entriesFrom_mem_intro 0 hj (matchedEntry_match h1 h2), rfl⟩
  · intro j i attrs hj h1 h2
    constructor
    · rw [get_items_fst, List.getElem?_map, hj]
      simp [processOne_nomatch h1 h2]
    · intro k e he hitem
      rw [mem_bucket_iff] at he
      obtain ⟨j', i', hj', hidx, hme⟩ := mem_entriesFrom he
      have hidx' : e.item = 0 + j' := hidx
      have hjj : j' = j := by omega
      subst hjj
      rw [hj] at hj'
      have hii : i = i' := Option.some.inj hj'
      subst hii
      rw [matchedEntry_nomatch h1 h2] at hme
      exact Option.noConfusion hme

/-- Witness for C7: an eligible node with no matching annotation passes
through unchanged. -/
theorem c7_never_fails_witness :
    (( get_items_by_mark_prefix ([Item.Struct [] "B"] : List Item) "mark").1)[0]?
      = some (Item.Struct [] "B") :=
  ((c7_never_fails_exact_keys [Item.Struct [] "B"] "mark").2.2 0 (Item.Struct [] "B")
    [] (by decide) rfl (by decide)).1

/-- Claim C8: only annotations whose path is a plain single-segment
identifier can match: the matched index always holds a single-segment path
equal to the reported identifier, and an index holding a multi-segment path
(no plain identifier) is never the one returned by the search, for any
prefix. -/
theorem c8_multi_segment_never_matches (attrs : List Attribute) (name : String) :
    (∀ indx ident, find_attribute attrs name = some (indx, ident) →
      ∃ a, attrs[indx]? = some a ∧ a.path = [ident])
    ∧ (∀ (j : Nat) (b : Attribute), attrs[j]? = some b → b.get_ident = none →
        ∀ ident, find_attribute attrs name ≠ some (j, ident)) := by
  constructor
  · intro indx ident h
    obtain ⟨a, ha, hgi, _, _⟩ := find_attribute_eq_some_spec h
    exact ⟨a, ha, (get_ident_eq_some_iff a ident).mp hgi⟩
  · intro j b hb hnone ident h
    obtain ⟨a, ha, hgi, _, _⟩ := find_attribute_eq_some_spec h
    rw [hb] at ha
    have hba : b = a := Option.some.inj ha
    subst hba
    rw [hnone] at hgi
    exact Option.noConfusion hgi

/-- Witness for C8: a multi-segment annotation at index 0 is never the
match, even though a later annotation matches. -/
theorem c8_multi_segment_witness :
    find_attribute ([⟨["a", "b"]⟩, ⟨["feature_a"]⟩] : List Attribute) "feature"
      ≠ some (0, "feature_a") :=
  (c8_multi_segment_never_matches [⟨["a", "b"]⟩, ⟨["feature_a"]⟩] "feature").2
    0 ⟨["a", "b"]⟩ (by decide) rfl "feature_a"

/-- Claim C9: constructing the container from a parsed module declaration
with no body yields the empty container, not an error; with inline content
it holds exactly those items in source order; a failure of the upstream
parser is propagated unchanged. -/
theorem c9_parse_module_body (its : List Item) (e : String) (u : Unit) :
    MacroScope.parse (Except.ok { content := none }) = Except.ok { items := [] }
    ∧ MacroScope.parse (Except.ok { content := some (u, its) })
        = Except.ok { items := its }
    ∧ MacroScope.parse (Except.error e) = Except.error e :=
  ⟨rfl, rfl, rfl⟩

/-- Claim C10: the code does not enforce a non-empty prefix. The empty
string is a substring of every identifier, so with an empty prefix every
eligible node carrying at least one single-segment-path annotation has its
first such annotation removed and grouped under that annotation's full
identifier. -/
theorem c10_empty_mark_matches_everything (s : String) (items : List Item)
    (j : Nat) (i : Item) (attrs : List Attribute)
    (hj : items[j]? = some i) (h1 : i.attrs? = some attrs)
    (h3 : ∃ a ∈ attrs, a.get_ident ≠ none) :
    strContains s "" = true
    ∧ ∃ indx ident a, find_attribute attrs "" = some (indx, ident)
        ∧ attrs[indx]? = some a ∧ a.get_ident = some ident
        ∧ (∀ (k : Nat) (b : Attribute), k < indx → attrs[k]? = some b →
            b.get_ident = none)
        ∧ MarkedItem.new a j ∈
            groupGet (( get_items_by_mark_prefix items "").2) ident
        ∧ (( get_items_by_mark_prefix items "").1)[j]? =
            some (i.withAttrs (attrs.eraseIdx indx)) := by
  refine ⟨strContains_empty_pat s, ?_⟩
  have hne : find_attribute attrs "" ≠ none := by
    intro hnone
    rw [find_attribute_eq_none_iff] at hnone
    obtain ⟨b, hbmem, hbg⟩ := h3
    have hfalse := hnone b hbmem
    cases hgb : b.get_ident with
    | none => exact hbg hgb
    | some s' =>
      rw [attrMatches_of_get_ident_some hgb, strContains_empty_pat] at hfalse
      exact Bool.noConfusion hfalse
  obtain ⟨q, hq⟩ := Option.ne_none_iff_exists'.mp hne
  obtain ⟨indx, ident⟩ := q
  obtain ⟨a, ha, hgi, _, hfirst⟩ := find_attribute_eq_some_spec hq
  refine ⟨indx, ident, a, hq, ha, hgi, ?_, ?_, ?_⟩
  · intro k b hk hb
    have hm := hfirst k b hk hb
    cases hgb : b.get_ident with
    | none => rfl
    | some s' =>
      rw [attrMatches_of_get_ident_some hgb, strContains_empty_pat] at hm
      exact Bool.noConfusion hm
  · have hme : matchedEntry i "" = some (ident, a) := by
      rw [matchedEntry_match h1 hq]
      have hgd : attrs.getD indx { path := [] } = a := by
        rw [List.getD_eq_getElem?_getD, ha]
        rfl
      rw [hgd]
    have hmem := entriesFrom_mem_intro 0 hj hme
    rw [mem_bucket_iff]
    simpa using hmem
  · rw [get_items_fst, List.getElem?_map, hj]
    simp [processOne_match h1 hq]

/-- Witness for C10 on a concrete container: a function node carrying a
multi-segment annotation followed by a plain one, extracted with the empty
prefix. -/
theorem c10_empty_mark_witness :
    strContains "q" "" = true
    ∧ ∃ indx ident a,
        find_attribute ([⟨["m", "n"]⟩, ⟨["f"]⟩] : List Attribute) ""
            = some (indx, ident)
        ∧ ([⟨["m", "n"]⟩, ⟨["f"]⟩] : List Attribute)[indx]? = some a
        ∧ a.get_ident = some ident
        ∧ (∀ (k : Nat) (b : Attribute), k < indx →
            ([⟨["m", "n"]⟩, ⟨["f"]⟩] : List Attribute)[k]? = some b →
            b.get_ident = none)
        ∧ MarkedItem.new a 0 ∈
            groupGet (( get_items_by_mark_prefix
              ([Item.Fn [⟨["m", "n"]⟩, ⟨["f"]⟩] "c"] : List Item) "").2) ident
        ∧ (( get_items_by_mark_prefix
              ([Item.Fn [⟨["m", "n"]⟩, ⟨["f"]⟩] "c"] : List Item) "").1)[0]? =
            some ((Item.Fn [⟨["m", "n"]⟩, ⟨["f"]⟩] "c").withAttrs
              (([⟨["m", "n"]⟩, ⟨["f"]⟩] : List Attribute).eraseIdx indx)) :=
  c10_empty_mark_matches_everything "q" [Item.Fn [⟨["m", "n"]⟩, ⟨["f"]⟩] "c"] 0
    (Item.Fn [⟨["m", "n"]⟩, ⟨["f"]⟩] "c") [⟨["m", "n"]⟩, ⟨["f"]⟩]
    (by decide) rfl (by decide)

example : strContains "my_mark_v2" "mark" = true := by decide
example : strContains "mark" "my_mark_v2" = false := by decide
example : strContains "anything" "" = true := by decide
example : find_attribute [⟨["a", "b"]⟩, ⟨["feature_a"]⟩, ⟨["feature_b"]⟩] "feature"
    = some (1, "feature_a") := by decide
example :
    get_items_by_mark_prefix
      [Item.Struct [⟨["mark_x"]⟩] "A", Item.Struct [] "B", Item.Fn [⟨["mark_y"]⟩] "c"]
      "mark"
    = ([Item.Struct [] "A", Item.Struct [] "B", Item.Fn [] "c"],
       [("mark_x", [⟨⟨["mark_x"]⟩, 0⟩]), ("mark_y", [⟨⟨["mark_y"]⟩, 2⟩])]) := by decide
